import Mathlib

/-!
# Verification of `fifobuff.hpp`

A shallow embedding of the fixed-capacity FIFO ring buffer `FIFOBuff<T>`
and its thread-safe wrapper `FIFOBuff_TS<T>` from `src/fifobuff.hpp`,
together with proofs and refutations of the specification's claims.

Storage is modelled as a list of `Option α` slots: `some v` is a slot
holding a live, constructed element with value `v`; `none` is
uninitialized (or already-destructed) memory.  Calling the element
destructor on a slot marks it `none`; a destructor call that hits a slot
which holds no live element (undefined behaviour in the C++ source) is
recorded in the ghost counter `badDtors`, which never influences control
flow.  The semaphores of `FIFOBuff_TS` are modelled as the natural-number
counters they maintain.
-/

set_option maxHeartbeats 1000000

/-- State of `FIFOBuff<T>` (fifobuff.hpp lines 24-33).  Field names follow
the source: `buffer` is the slot array, `head`/`tail` the ring indices,
`fifo_size` the current element count, `fifo_cap` the capacity.
`badDtors` is ghost instrumentation counting destructor calls on slots
with no live element. -/
structure FIFOBuff (α : Type) where
  buffer : List (Option α)
  head : Nat
  tail : Nat
  fifo_size : Nat
  fifo_cap : Nat
  badDtors : Nat
  deriving DecidableEq

namespace FIFOBuff

/-- The allocating constructor `FIFOBuff(size_t max_cap)` (lines 44-46):
all indices and the count start at 0, storage is `max_cap` uninitialized
slots. -/
def construct (α : Type) (max_cap : Nat) : FIFOBuff α :=
  { buffer := List.replicate max_cap none
    head := 0, tail := 0, fifo_size := 0, fifo_cap := max_cap, badDtors := 0 }

/-- `size()` (lines 76-78). -/
def size (s : FIFOBuff α) : Nat := s.fifo_size

/-- `capacity()` (lines 83-85). -/
def capacity (s : FIFOBuff α) : Nat := s.fifo_cap

/-- The explicit destructor call `reinterpret_cast<T*>(buffer + i)->~T()`.
A live slot becomes uninitialized; destructing a dead slot is recorded in
the ghost counter. -/
def destructAt (s : FIFOBuff α) (i : Nat) : FIFOBuff α :=
  match s.buffer.getD i none with
  | some _ => { s with buffer := s.buffer.set i none }
  | none => { s with badDtors := s.badDtors + 1 }

/-- `add(const T &item)` (lines 93-104): if not full, placement-new a copy
of `item` at `tail`, advance `tail` modulo capacity, bump the count, return
true; otherwise return false with no mutation. -/
def add (s : FIFOBuff α) (item : α) : Bool × FIFOBuff α :=
  if s.fifo_size < s.fifo_cap then
    (true, { s with buffer := s.buffer.set s.tail (some item)
                    tail := (s.tail + 1) % s.fifo_cap
                    fifo_size := s.fifo_size + 1 })
  else
    (false, s)

/-- `remove(T *pitem)` (lines 113-133): on an empty buffer return false.
Otherwise, if `pitem` is non-null (`copyOut = true`) copy the slot at
`head` out; then call the destructor on the slot at `tail` — exactly as
the source does on line 126 — advance `head` modulo capacity, decrement
the count, return true.  The middle component is the value copied to
`*pitem` (`none` when nothing was copied or the slot read was
uninitialized memory). -/
def remove (s : FIFOBuff α) (copyOut : Bool) : Bool × Option α × FIFOBuff α :=
  if s.fifo_size = 0 then
    (false, none, s)
  else
    let copied := if copyOut then s.buffer.getD s.head none else none
    let s1 := destructAt s s.tail
    (true, copied,
      { s1 with head := (s1.head + 1) % s1.fifo_cap, fifo_size := s1.fifo_size - 1 })

/-- `peek(T *pitem)` (lines 141-149): if non-empty, copy the slot at
`tail` — exactly as the source does on line 143 — into `*pitem` and return
true; otherwise return false.  `const`: the state is not modified. -/
def peek (s : FIFOBuff α) : Bool × Option α :=
  if 0 < s.fifo_size then (true, s.buffer.getD s.tail none) else (false, none)

/-- One iteration step of the destructor loop (lines 62-66). -/
def drainStep (s : FIFOBuff α) : FIFOBuff α :=
  let s1 := destructAt s s.head
  { s1 with head := (s1.head + 1) % s1.fifo_cap, fifo_size := s1.fifo_size - 1 }

/-- The destructor loop, with the loop bound `fifo_size` made explicit as
fuel (each iteration decrements `fifo_size` by one). -/
def drainFuel : Nat → FIFOBuff α → FIFOBuff α
  | 0, s => s
  | n + 1, s => if s.fifo_size = 0 then s else drainFuel n (drainStep s)

/-- `~FIFOBuff()` (lines 58-71): destruct the `fifo_size` elements
starting at `head`, wrapping modulo capacity. -/
def destroy (s : FIFOBuff α) : FIFOBuff α := drainFuel s.fifo_size s

/-- Number of live (constructed, not yet destructed) elements currently in
storage — what an instance-counting element type observes. -/
def liveCount (s : FIFOBuff α) : Nat := s.buffer.countP Option.isSome

end FIFOBuff

/-- A client operation on `FIFOBuff`: `add x`, `remove` with a non-null
(`copyOut = true`) or null output pointer, or `peek`. -/
inductive Op (α : Type) where
  | add (x : α)
  | remove (copyOut : Bool)
  | peek
  deriving DecidableEq

namespace FIFOBuff

/-- Run a list of operations.  Returns the final state, the list of values
delivered through `remove`'s output pointer (in order), and the list of
boolean results of the operations (in order). -/
def run : FIFOBuff α → List (Op α) → FIFOBuff α × List α × List Bool
  | s, [] => (s, [], [])
  | s, Op.add x :: rest =>
      let p := s.add x
      let r := run p.2 rest
      (r.1, r.2.1, p.1 :: r.2.2)
  | s, Op.remove c :: rest =>
      let p := s.remove c
      let r := run p.2.2 rest
      (r.1, (match p.2.1 with | some y => y :: r.2.1 | none => r.2.1), p.1 :: r.2.2)
  | s, Op.peek :: rest =>
      let r := run s rest
      (r.1, r.2.1, (s.peek).1 :: r.2.2)

/-- A sequence of operations is safe from state `s` when no `add` is
attempted on a full buffer and no `remove` on an empty one. -/
def safe : FIFOBuff α → List (Op α) → Bool
  | _, [] => true
  | s, Op.add x :: rest =>
      decide (s.fifo_size < s.fifo_cap) && safe (s.add x).2 rest
  | s, Op.remove c :: rest =>
      decide (0 < s.fifo_size) && safe (s.remove c).2.2 rest
  | s, Op.peek :: rest => safe s rest

/-- Every `remove` in the sequence carries a non-null output pointer. -/
def allCopy : List (Op α) → Bool
  | [] => true
  | Op.remove c :: rest => c && allCopy rest
  | _ :: rest => allCopy rest

/-- The values passed to `add`, in order. -/
def addedValues : List (Op α) → List α
  | [] => []
  | Op.add x :: rest => x :: addedValues rest
  | _ :: rest => addedValues rest

/-- The number of `remove` operations in the sequence. -/
def numRemoves : List (Op α) → Nat
  | [] => 0
  | Op.remove _ :: rest => numRemoves rest + 1
  | _ :: rest => numRemoves rest

/-- Structural invariant of the ring buffer: storage length equals the
capacity, the count is bounded by the capacity, `head` is in range, and
`tail` is `head + fifo_size` modulo capacity. -/
def Inv (s : FIFOBuff α) : Prop :=
  s.buffer.length = s.fifo_cap ∧ s.fifo_size ≤ s.fifo_cap ∧
  s.head < s.fifo_cap ∧ s.tail = (s.head + s.fifo_size) % s.fifo_cap ∧
  0 < s.fifo_cap

/-- The logical window of the buffer: the `fifo_size` slots starting at
`head`, modulo capacity, oldest first. -/
def toList (s : FIFOBuff α) : List (Option α) :=
  (List.range s.fifo_size).map (fun i => s.buffer.getD ((s.head + i) % s.fifo_cap) none)

/-- Refinement relation to an abstract queue: the structural invariant
holds and the window slots hold exactly the pending values, all live. -/
def Abs (s : FIFOBuff α) (q : List α) : Prop :=
  Inv s ∧ toList s = q.map some

end FIFOBuff

/-- State of `FIFOBuff_TS<T>` (lines 164-179): the wrapped ring buffer and
the counters maintained by the two semaphores — `add_sem` is created with
count `fifo.capacity()` (free slots), `rem_sem` with count 0 (available
items).  The mutex has no sequential content. -/
structure FIFOBuff_TS (α : Type) where
  fifo : FIFOBuff α
  add_sem : Nat
  rem_sem : Nat
  deriving DecidableEq

namespace FIFOBuff_TS

/-- `FIFOBuff_TS(size_t max_cap)` with `init()` (lines 173-187). -/
def construct (α : Type) (max_cap : Nat) : FIFOBuff_TS α :=
  { fifo := FIFOBuff.construct α max_cap, add_sem := max_cap, rem_sem := 0 }

/-- `FIFOBuff_TS::add` (lines 206-219): `sem_trywait(add_sem)`; on success
lock, delegate to the ring buffer's `add` (result ignored), unlock,
`sem_post(rem_sem)`, return true; otherwise return false. -/
def add (s : FIFOBuff_TS α) (item : α) : Bool × FIFOBuff_TS α :=
  if 0 < s.add_sem then
    (true, { fifo := (s.fifo.add item).2, add_sem := s.add_sem - 1, rem_sem := s.rem_sem + 1 })
  else
    (false, s)

/-- `FIFOBuff_TS::remove` (lines 256-269): `sem_trywait(rem_sem)`; on
success lock, delegate to `remove`, unlock, `sem_post(add_sem)`, return
true; otherwise return false. -/
def remove (s : FIFOBuff_TS α) (copyOut : Bool) : Bool × Option α × FIFOBuff_TS α :=
  if 0 < s.rem_sem then
    let p := s.fifo.remove copyOut
    (true, p.2.1, { fifo := p.2.2, add_sem := s.add_sem + 1, rem_sem := s.rem_sem - 1 })
  else
    (false, none, s)

/-- `FIFOBuff_TS::peek` (lines 238-251): under the lock, if `size() > 0`
delegate to the buffer's `peek`; state is unchanged. -/
def peek (s : FIFOBuff_TS α) : Bool × Option α :=
  if 0 < s.fifo.size then (true, (s.fifo.peek).2) else (false, none)

end FIFOBuff_TS

/-- A client operation on `FIFOBuff_TS` (the non-blocking interface). -/
inductive TSOp (α : Type) where
  | add (x : α)
  | remove (copyOut : Bool)
  | peek
  deriving DecidableEq

namespace FIFOBuff_TS

/-- Run a list of operations on the thread-safe queue, returning the final
state. -/
def runTS : FIFOBuff_TS α → List (TSOp α) → FIFOBuff_TS α
  | s, [] => s
  | s, TSOp.add x :: rest => runTS (s.add x).2 rest
  | s, TSOp.remove c :: rest => runTS (s.remove c).2.2 rest
  | s, TSOp.peek :: rest => runTS s rest

end FIFOBuff_TS

/-! ## Auxiliary list and modular-arithmetic lemmas -/

theorem getD_set_self {β : Type} (l : List β) (i : Nat) (a d : β)
    (h : i < l.length) : (l.set i a).getD i d = a := by
  induction l generalizing i with
  | nil => simp at h
  | cons b t ih =>
    cases i with
    | zero => rfl
    | succ n =>
      simp only [List.set, List.getD, List.get?]
      exact ih n (by simpa using h)

theorem getD_set_ne {β : Type} (l : List β) (i j : Nat) (a d : β)
    (h : j ≠ i) : (l.set i a).getD j d = l.getD j d := by
  induction l generalizing i j with
  | nil => rfl
  | cons b t ih =>
    cases i with
    | zero =>
      cases j with
      | zero => exact absurd rfl h
      | succ m => rfl
    | succ n =>
      cases j with
      | zero => rfl
      | succ m =>
        simp only [List.set, List.getD, List.get?]
        exact ih n m (fun hc => h (by rw [hc]))

theorem mod_add_ne {n a d : Nat} (hd : 0 < d) (hdn : d < n) :
    (a + d) % n ≠ a % n := by
  intro h
  have hmod : a ≡ a + d [MOD n] := h.symm
  have hdvd : n ∣ a + d - a := (Nat.modEq_iff_dvd' (Nat.le_add_right a d)).mp hmod
  rw [Nat.add_sub_cancel_left] at hdvd
  have := Nat.le_of_dvd hd hdvd
  omega

theorem map_range_congr {β : Type} (f g : Nat → β) (n : Nat)
    (h : ∀ i, i < n → f i = g i) :
    (List.range n).map f = (List.range n).map g := by
  induction n with
  | zero => rfl
  | succ m ih =>
    rw [List.range_succ, List.map_append, List.map_append,
      ih (fun i hi => h i (Nat.lt_succ_of_lt hi))]
    simp [h m (Nat.lt_succ_self m)]

namespace FIFOBuff

/-! ## Per-operation lemmas -/

theorem destructAt_getD_ne (s : FIFOBuff α) (i j : Nat) (h : j ≠ i) :
    (s.destructAt i).buffer.getD j none = s.buffer.getD j none := by
  unfold destructAt
  split
  · exact getD_set_ne s.buffer i j none none h
  · rfl

@[simp] theorem destructAt_head (s : FIFOBuff α) (i : Nat) :
    (s.destructAt i).head = s.head := by
  unfold destructAt; split <;> rfl

@[simp] theorem destructAt_tail (s : FIFOBuff α) (i : Nat) :
    (s.destructAt i).tail = s.tail := by
  unfold destructAt; split <;> rfl

@[simp] theorem destructAt_fifo_size (s : FIFOBuff α) (i : Nat) :
    (s.destructAt i).fifo_size = s.fifo_size := by
  unfold destructAt; split <;> rfl

@[simp] theorem destructAt_fifo_cap (s : FIFOBuff α) (i : Nat) :
    (s.destructAt i).fifo_cap = s.fifo_cap := by
  unfold destructAt; split <;> rfl

@[simp] theorem destructAt_buffer_length (s : FIFOBuff α) (i : Nat) :
    (s.destructAt i).buffer.length = s.buffer.length := by
  unfold destructAt; split
  · exact List.length_set s.buffer i none
  · rfl

theorem toList_length (s : FIFOBuff α) : (toList s).length = s.fifo_size := by
  simp [toList]

theorem abs_size {s : FIFOBuff α} {q : List α} (h : Abs s q) :
    s.fifo_size = q.length := by
  have := congrArg List.length h.2
  simpa [toList] using this

theorem abs_mk (α : Type) (cap : Nat) (hcap : 0 < cap) :
    Abs (construct α cap) [] := by
  refine ⟨⟨?_, ?_, ?_, ?_, hcap⟩, ?_⟩
  · simp [construct]
  · simp [construct]
  · simpa [construct] using hcap
  · simp [construct]
  · simp [toList, construct]

/-- A successful `add` appends the new value to the abstract queue. -/
theorem add_spec {α : Type} {s : FIFOBuff α} {q : List α} (x : α)
    (h : Abs s q) (hlt : s.fifo_size < s.fifo_cap) :
    (s.add x).1 = true ∧ Abs (s.add x).2 (q ++ [x]) := by
  obtain ⟨⟨hlen, hsz, hhd, htl, hcap⟩, habs⟩ := h
  have hstep : s.add x = (true,
      { s with buffer := s.buffer.set s.tail (some x)
               tail := (s.tail + 1) % s.fifo_cap
               fifo_size := s.fifo_size + 1 }) := by
    simp [add, hlt]
  rw [hstep]
  refine ⟨rfl, ⟨?_, ?_, ?_, ?_, hcap⟩, ?_⟩
  · simpa using hlen
  · simpa using hlt
  · exact hhd
  · show (s.tail + 1) % s.fifo_cap = (s.head + (s.fifo_size + 1)) % s.fifo_cap
    rw [htl, Nat.mod_add_mod, ← Nat.add_assoc]
  · show (List.range (s.fifo_size + 1)).map
        (fun i => (s.buffer.set s.tail (some x)).getD ((s.head + i) % s.fifo_cap) none)
        = (q ++ [x]).map some
    rw [List.range_succ, List.map_append, List.map_append]
    have hwin : (List.range s.fifo_size).map
        (fun i => (s.buffer.set s.tail (some x)).getD ((s.head + i) % s.fifo_cap) none)
        = (List.range s.fifo_size).map
        (fun i => s.buffer.getD ((s.head + i) % s.fifo_cap) none) := by
      apply map_range_congr
      intro i hi
      apply getD_set_ne
      rw [htl]
      have : s.head + s.fifo_size = (s.head + i) + (s.fifo_size - i) := by omega
      rw [this]
      exact Ne.symm (mod_add_ne (by omega) (by omega))
    rw [hwin]
    have hnew : (s.buffer.set s.tail (some x)).getD
        ((s.head + s.fifo_size) % s.fifo_cap) none = some x := by
      rw [← htl]
      exact getD_set_self s.buffer s.tail (some x) none
        (by rw [hlen, htl]; exact Nat.mod_lt _ hcap)
    simp only [List.map_cons, List.map_nil, hnew]
    rw [show List.map (fun i => s.buffer.getD ((s.head + i) % s.fifo_cap) none)
        (List.range s.fifo_size) = List.map some q from habs]

/-- A successful `remove` with a non-null output pointer delivers the
oldest pending value and pops it from the abstract queue. -/
theorem remove_spec {α : Type} {s : FIFOBuff α} {x : α} {q : List α}
    (h : Abs s (x :: q)) :
    (s.remove true).1 = true ∧ (s.remove true).2.1 = some x ∧
    Abs (s.remove true).2.2 q := by
  obtain ⟨⟨hlen, hsz, hhd, htl, hcap⟩, habs⟩ := h
  have hsize : s.fifo_size = q.length + 1 := by
    have := congrArg List.length habs
    simpa [toList] using this
  have hne : ¬ (s.fifo_size = 0) := by omega
  -- decompose the window equation into its first slot and the rest
  have hdec : toList s =
      s.buffer.getD ((s.head + 0) % s.fifo_cap) none ::
      (List.range q.length).map
        (fun i => s.buffer.getD ((s.head + (i + 1)) % s.fifo_cap) none) := by
    rw [toList, hsize, List.range_succ_eq_map, List.map_cons, List.map_map]
    rfl
  rw [hdec] at habs
  simp only [List.map_cons, List.cons.injEq] at habs
  obtain ⟨hx0, htail⟩ := habs
  rw [Nat.add_zero, Nat.mod_eq_of_lt hhd] at hx0
  have hstep : s.remove true = (true, s.buffer.getD s.head none,
      ⟨(s.destructAt s.tail).buffer, (s.head + 1) % s.fifo_cap, s.tail,
        s.fifo_size - 1, s.fifo_cap, (s.destructAt s.tail).badDtors⟩) := by
    simp [remove, hne]
  rw [hstep]
  refine ⟨rfl, hx0, ⟨?_, ?_, ?_, ?_, ?_⟩, ?_⟩
  · show (s.destructAt s.tail).buffer.length = s.fifo_cap
    rw [destructAt_buffer_length, hlen]
  · show s.fifo_size - 1 ≤ s.fifo_cap
    omega
  · exact Nat.mod_lt _ hcap
  · show s.tail = ((s.head + 1) % s.fifo_cap + (s.fifo_size - 1)) % s.fifo_cap
    rw [Nat.mod_add_mod, htl, hsize]
    congr 1
    omega
  · simpa using hcap
  · show (List.range (s.fifo_size - 1)).map
        (fun i => (s.destructAt s.tail).buffer.getD
          (((s.head + 1) % s.fifo_cap + i) % s.fifo_cap) none)
        = q.map some
    rw [hsize, Nat.add_sub_cancel, ← htail]
    apply map_range_congr
    intro i hi
    rw [Nat.mod_add_mod]
    have hidx : s.head + 1 + i = s.head + (i + 1) := by omega
    rw [hidx]
    apply destructAt_getD_ne
    rw [htl, hsize]
    have : s.head + (q.length + 1) = (s.head + (i + 1)) + (q.length - i) := by omega
    rw [this]
    exact Ne.symm (mod_add_ne (by omega) (by omega))

/-- Running a safe, all-copying sequence of operations from a state that
refines the abstract queue `q` delivers, through `remove`, the pending
values followed by the added values, in FIFO order. -/
theorem run_fifo {α : Type} : ∀ (ops : List (Op α)) (s : FIFOBuff α) (q : List α),
    Abs s q → safe s ops = true → allCopy ops = true →
    (run s ops).2.1 = (q ++ addedValues ops).take (numRemoves ops) ∧
    Abs (run s ops).1 ((q ++ addedValues ops).drop (numRemoves ops)) := by
  intro ops
  induction ops with
  | nil =>
    intro s q habs _ _
    refine ⟨by simp [run, numRemoves, addedValues], ?_⟩
    simpa [run, numRemoves, addedValues] using habs
  | cons op rest ih =>
    intro s q habs hsafe hcopy
    cases op with
    | add x =>
      simp only [safe, Bool.and_eq_true, decide_eq_true_eq] at hsafe
      simp only [allCopy] at hcopy
      obtain ⟨hlt, hsafe'⟩ := hsafe
      have hadd := add_spec x habs hlt
      have hih := ih (s.add x).2 (q ++ [x]) hadd.2 hsafe' hcopy
      simp only [run, addedValues, numRemoves]
      constructor
      · rw [hih.1, List.append_assoc]
        rfl
      · have h2 := hih.2
        rwa [List.append_assoc] at h2
    | remove c =>
      simp only [safe, Bool.and_eq_true, decide_eq_true_eq] at hsafe
      simp only [allCopy, Bool.and_eq_true] at hcopy
      obtain ⟨hpos, hsafe'⟩ := hsafe
      obtain ⟨hc, hcopy'⟩ := hcopy
      subst hc
      have hlen : s.fifo_size = q.length := abs_size habs
      cases q with
      | nil =>
        simp only [List.length_nil] at hlen
        exact absurd hpos (by omega)
      | cons y q' =>
        have hrem := remove_spec (x := y) (q := q') habs
        have hih := ih (s.remove true).2.2 q' hrem.2.2 hsafe' hcopy'
        simp only [run, addedValues, numRemoves]
        constructor
        · rw [hrem.2.1, hih.1]
          simp [List.cons_append, List.take_succ_cons]
        · have h2 := hih.2
          simpa [List.cons_append, List.drop_succ_cons] using h2
    | peek =>
      simp only [safe] at hsafe
      simp only [allCopy] at hcopy
      have hih := ih s q habs hsafe hcopy
      simp only [run, addedValues, numRemoves]
      exact hih

/-! ## Boundedness of indices and count (no safety assumption) -/

/-- Bounds that every operation preserves, fail or succeed. -/
def Inv0 (s : FIFOBuff α) : Prop :=
  s.fifo_size ≤ s.fifo_cap ∧ s.head < s.fifo_cap ∧ s.tail < s.fifo_cap

theorem add_inv0 (s : FIFOBuff α) (x : α) (h : Inv0 s) :
    Inv0 (s.add x).2 ∧ (s.add x).2.fifo_cap = s.fifo_cap := by
  obtain ⟨h1, h2, h3⟩ := h
  have hcap : 0 < s.fifo_cap := by omega
  unfold add
  split
  · next hlt =>
    refine ⟨⟨?_, h2, Nat.mod_lt _ hcap⟩, rfl⟩
    show s.fifo_size + 1 ≤ s.fifo_cap
    omega
  · exact ⟨⟨h1, h2, h3⟩, rfl⟩

theorem remove_inv0 (s : FIFOBuff α) (c : Bool) (h : Inv0 s) :
    Inv0 (s.remove c).2.2 ∧ (s.remove c).2.2.fifo_cap = s.fifo_cap := by
  obtain ⟨h1, h2, h3⟩ := h
  have hcap : 0 < s.fifo_cap := by omega
  unfold remove
  split
  · exact ⟨⟨h1, h2, h3⟩, rfl⟩
  · refine ⟨⟨?_, ?_, ?_⟩, ?_⟩ <;>
      simp only [destructAt_fifo_size, destructAt_fifo_cap, destructAt_head,
        destructAt_tail]
    · omega
    · exact Nat.mod_lt _ hcap
    · exact h3

theorem run_inv0 {α : Type} : ∀ (ops : List (Op α)) (s : FIFOBuff α), Inv0 s →
    Inv0 (run s ops).1 ∧ (run s ops).1.fifo_cap = s.fifo_cap := by
  intro ops
  induction ops with
  | nil => intro s h; exact ⟨h, rfl⟩
  | cons op rest ih =>
    intro s h
    cases op with
    | add x =>
      have ha := add_inv0 s x h
      have hih := ih (s.add x).2 ha.1
      simp only [run]
      exact ⟨hih.1, hih.2.trans ha.2⟩
    | remove c =>
      have hr := remove_inv0 s c h
      have hih := ih (s.remove c).2.2 hr.1
      simp only [run]
      exact ⟨hih.1, hih.2.trans hr.2⟩
    | peek =>
      have hih := ih s h
      simp only [run]
      exact hih

theorem inv0_mk (α : Type) (cap : Nat) (hcap : 0 < cap) : Inv0 (construct α cap) :=
  ⟨Nat.zero_le _, hcap, hcap⟩

end FIFOBuff

namespace FIFOBuff_TS

/-- The sum of the two semaphore counters is preserved by every operation
of the thread-safe queue. -/
theorem runTS_sem {α : Type} : ∀ (ops : List (TSOp α)) (s : FIFOBuff_TS α),
    (runTS s ops).add_sem + (runTS s ops).rem_sem = s.add_sem + s.rem_sem := by
  intro ops
  induction ops with
  | nil => intro s; rfl
  | cons op rest ih =>
    intro s
    cases op with
    | add x =>
      simp only [runTS]
      rw [ih]
      unfold add
      split
      · next hpos => simp only; omega
      · rfl
    | remove c =>
      simp only [runTS]
      rw [ih]
      unfold remove
      split
      · next hpos => simp only; omega
      · rfl
    | peek =>
      simp only [runTS]
      exact ih s

end FIFOBuff_TS

/-! ## Claim theorems -/

/-- Concrete counterexample state: a capacity-3 buffer after `add(10)` and
`add(20)`, so `head = 0`, `tail = 2`, and slots 0 and 1 hold live elements
`10` and `20`. -/
def twoElemBuf : FIFOBuff Nat := (((FIFOBuff.construct Nat 3).add 10).2.add 20).2

/-- C1: refuted on the code (the spec itself flags this as a latent defect,
§7).  The claim states that `remove` finalizes the element at `head`; the
source (line 126) calls the destructor on the slot at `tail` instead.  On a
capacity-3 buffer holding `[10, 20]` (`head = 0`, `tail = 2`), `remove`
copies and returns the head element `10` correctly, advances `head` and
decrements the count — but the slot at `head` still holds the live element
`10` afterwards, while the destructor call landed on the uninitialized
slot at `tail` (recorded by the ghost counter `badDtors = 1`). -/
theorem remove_finalizes_tail_slot_not_head :
    twoElemBuf.head = 0 ∧ twoElemBuf.tail = 2 ∧ twoElemBuf.fifo_size = 2 ∧
    (FIFOBuff.remove twoElemBuf true).1 = true ∧
    (FIFOBuff.remove twoElemBuf true).2.1 = some 10 ∧
    (FIFOBuff.remove twoElemBuf true).2.2.head = 1 ∧
    (FIFOBuff.remove twoElemBuf true).2.2.fifo_size = 1 ∧
    (FIFOBuff.remove twoElemBuf true).2.2.buffer.getD 0 none = some 10 ∧
    (FIFOBuff.remove twoElemBuf true).2.2.badDtors = 1 := by
  decide

/-- C2: refuted on the code (the spec itself flags this as a defect, §4.1
and §9).  The claim states that `peek` copies the element at `head`, the
same one a subsequent `remove` would yield.  The source (line 143) copies
the slot at `tail` instead.  On a capacity-3 buffer holding `[10, 20]`
(`head = 0`, `tail = 2`), `peek` returns success but copies the
uninitialized slot at `tail` (`none`), while the element at `head` is `10`
and `remove` delivers `10`: peek and remove read from different ends. -/
theorem peek_reads_tail_not_head :
    FIFOBuff.peek twoElemBuf = (true, none) ∧
    twoElemBuf.buffer.getD twoElemBuf.head none = some 10 ∧
    (FIFOBuff.remove twoElemBuf true).2.1 = some 10 := by
  decide

/-- C3: refuted on the code (a consequence of the `remove` defect the spec
flags in §7).  After `add 10; add 20; remove` on a capacity-3 buffer the
claimed invariant fails: `count = 1` and `head = 1`, so only slot 1 should
be live, yet slot 0 still holds the live element `10`, and the destructor
was invoked once on an uninitialized slot (`badDtors = 1`).  After running
the container's destructor, one element is still live (`liveCount = 1`):
the net live-instance count does not return to the baseline — element `10`
is leaked and one finalization hit never-constructed memory. -/
theorem lifecycle_leak_after_destroy :
    (FIFOBuff.remove twoElemBuf true).2.2.fifo_size = 1 ∧
    (FIFOBuff.remove twoElemBuf true).2.2.head = 1 ∧
    (FIFOBuff.remove twoElemBuf true).2.2.buffer.getD 0 none = some 10 ∧
    FIFOBuff.liveCount (FIFOBuff.destroy (FIFOBuff.remove twoElemBuf true).2.2) = 1 ∧
    (FIFOBuff.destroy (FIFOBuff.remove twoElemBuf true).2.2).badDtors = 1 := by
  decide

/-- C9: confirmed.  On a buffer constructed with capacity 0, every
sequence of `add`, `remove` and `peek` operations leaves the state exactly
as constructed, delivers no values, and every operation returns `false`:
the guards `fifo_size < fifo_cap` and `fifo_size == 0` fail first, so the
index arithmetic and the storage are never reached. -/
theorem cap_zero_all_ops_fail (α : Type) (ops : List (Op α)) :
    (FIFOBuff.run (FIFOBuff.construct α 0) ops).1 = FIFOBuff.construct α 0 ∧
    (FIFOBuff.run (FIFOBuff.construct α 0) ops).2.1 = [] ∧
    (FIFOBuff.run (FIFOBuff.construct α 0) ops).2.2 = List.replicate ops.length false := by
  induction ops with
  | nil => exact ⟨rfl, rfl, rfl⟩
  | cons op rest ih =>
    cases op with
    | add x =>
      have hstep : (FIFOBuff.construct α 0).add x = (false, FIFOBuff.construct α 0) := by
        simp [FIFOBuff.add, FIFOBuff.construct]
      simp only [FIFOBuff.run, hstep]
      exact ⟨ih.1, ih.2.1, by
        rw [List.length_cons, List.replicate_succ]
        exact congrArg (List.cons false) ih.2.2⟩
    | remove c =>
      have hstep : (FIFOBuff.construct α 0).remove c = (false, none, FIFOBuff.construct α 0) := by
        simp [FIFOBuff.remove, FIFOBuff.construct]
      simp only [FIFOBuff.run, hstep]
      exact ⟨ih.1, ih.2.1, by
        rw [List.length_cons, List.replicate_succ]
        exact congrArg (List.cons false) ih.2.2⟩
    | peek =>
      have hstep : ((FIFOBuff.construct α 0).peek).1 = false := by
        simp [FIFOBuff.peek, FIFOBuff.construct]
      simp only [FIFOBuff.run, hstep]
      exact ⟨ih.1, ih.2.1, by
        rw [List.length_cons, List.replicate_succ]
        exact congrArg (List.cons false) ih.2.2⟩

/-- C4: confirmed.  For every capacity `cap > 0` and every sequence of
operations in which no `add` is attempted on a full buffer and no `remove`
on an empty one (`safe`), with every `remove` carrying a non-null output
pointer (`allCopy`), the values delivered through `remove` are exactly the
values passed to `add`, in the same order — the first `numRemoves` of
them.  The capacity and the sequence are arbitrary, so this includes
sequences whose indices wrap around the capacity. -/
theorem fifo_order_preserved {α : Type} (cap : Nat) (hcap : 0 < cap)
    (ops : List (Op α))
    (hsafe : FIFOBuff.safe (FIFOBuff.construct α cap) ops = true)
    (hcopy : FIFOBuff.allCopy ops = true) :
    (FIFOBuff.run (FIFOBuff.construct α cap) ops).2.1 =
      (FIFOBuff.addedValues ops).take (FIFOBuff.numRemoves ops) := by
  have h := FIFOBuff.run_fifo ops (FIFOBuff.construct α cap) []
    (FIFOBuff.abs_mk α cap hcap) hsafe hcopy
  simpa using h.1

/-- Witness for C4: a capacity-2 buffer with a wrapping sequence of three
adds and three removes delivers `[1, 2, 3]` in insertion order. -/
theorem fifo_order_preserved_witness :
    (FIFOBuff.run (FIFOBuff.construct Nat 2)
      [Op.add 1, Op.add 2, Op.remove true, Op.add 3,
       Op.remove true, Op.remove true]).2.1 =
    (FIFOBuff.addedValues
      [Op.add 1, Op.add 2, Op.remove true, Op.add 3,
       Op.remove true, Op.remove true]).take
      (FIFOBuff.numRemoves
        [Op.add 1, Op.add 2, Op.remove true, Op.add 3,
         Op.remove true, Op.remove true]) :=
  fifo_order_preserved 2 (by decide)
    [Op.add 1, Op.add 2, Op.remove true, Op.add 3,
     Op.remove true, Op.remove true] (by decide) (by decide)

/-- C5: confirmed.  `add` on a full buffer returns `false` and leaves the
whole state (head, tail, count, every stored slot) unchanged; `remove` and
`peek` on an empty buffer return `false` with the state unchanged and
nothing written to the output pointer.  All three report the condition only
through the boolean result. -/
theorem full_empty_ops_fail_unchanged {α : Type} (s : FIFOBuff α)
    (x : α) (c : Bool) :
    (s.fifo_size = s.fifo_cap → s.add x = (false, s)) ∧
    (s.fifo_size = 0 → s.remove c = (false, none, s) ∧ s.peek = (false, none)) := by
  constructor
  · intro h
    simp [FIFOBuff.add, h]
  · intro h
    constructor
    · simp [FIFOBuff.remove, h]
    · simp [FIFOBuff.peek, h]

/-- Witness for C5: a full capacity-1 buffer rejects `add` unchanged, and
the empty capacity-1 buffer rejects `remove` and `peek` unchanged. -/
theorem full_empty_ops_fail_unchanged_witness :
    (((FIFOBuff.construct Nat 1).add 7).2.add 9 = (false, ((FIFOBuff.construct Nat 1).add 7).2)) ∧
    ((FIFOBuff.construct Nat 1).remove true = (false, none, FIFOBuff.construct Nat 1) ∧
      (FIFOBuff.construct Nat 1).peek = (false, none)) :=
  ⟨(full_empty_ops_fail_unchanged ((FIFOBuff.construct Nat 1).add 7).2 9 true).1 (by decide),
   (full_empty_ops_fail_unchanged (FIFOBuff.construct Nat 1) 9 true).2 (by decide)⟩

/-- C6: confirmed.  From a buffer constructed with capacity `cap > 0`,
after any sequence of `add`, `remove` and `peek` operations (successful or
failing) the count stays between 0 and `cap`, `head` and `tail` stay in
`[0, cap)`, and the capacity field still equals `cap`. -/
theorem indices_and_count_bounded {α : Type} (cap : Nat) (hcap : 0 < cap)
    (ops : List (Op α)) :
    (FIFOBuff.run (FIFOBuff.construct α cap) ops).1.fifo_size ≤ cap ∧
    (FIFOBuff.run (FIFOBuff.construct α cap) ops).1.head < cap ∧
    (FIFOBuff.run (FIFOBuff.construct α cap) ops).1.tail < cap ∧
    (FIFOBuff.run (FIFOBuff.construct α cap) ops).1.fifo_cap = cap := by
  have h := FIFOBuff.run_inv0 ops (FIFOBuff.construct α cap) (FIFOBuff.inv0_mk α cap hcap)
  have hc : (FIFOBuff.run (FIFOBuff.construct α cap) ops).1.fifo_cap = cap := h.2
  obtain ⟨⟨h1, h2, h3⟩, _⟩ := h
  rw [hc] at h1 h2 h3
  exact ⟨h1, h2, h3, hc⟩

/-- Witness for C6 at capacity 2 with a mixed (partly failing) sequence. -/
theorem indices_and_count_bounded_witness :
    (FIFOBuff.run (FIFOBuff.construct Nat 2)
      [Op.add 1, Op.add 2, Op.add 3, Op.remove true, Op.peek,
       Op.remove false, Op.remove true]).1.fifo_size ≤ 2 ∧
    (FIFOBuff.run (FIFOBuff.construct Nat 2)
      [Op.add 1, Op.add 2, Op.add 3, Op.remove true, Op.peek,
       Op.remove false, Op.remove true]).1.head < 2 ∧
    (FIFOBuff.run (FIFOBuff.construct Nat 2)
      [Op.add 1, Op.add 2, Op.add 3, Op.remove true, Op.peek,
       Op.remove false, Op.remove true]).1.tail < 2 ∧
    (FIFOBuff.run (FIFOBuff.construct Nat 2)
      [Op.add 1, Op.add 2, Op.add 3, Op.remove true, Op.peek,
       Op.remove false, Op.remove true]).1.fifo_cap = 2 :=
  indices_and_count_bounded 2 (by decide)
    [Op.add 1, Op.add 2, Op.add 3, Op.remove true, Op.peek,
     Op.remove false, Op.remove true]

/-- C7: confirmed.  The synchronized queue starts with `add_sem`
(free units) equal to the capacity and `rem_sem` (filled units) equal to
0; after any sequence of non-blocking operations the two counters still
sum to the capacity; every successful `add` moves exactly one unit from
free to filled, and every successful `remove` moves exactly one unit from
filled to free. -/
theorem ts_sem_counters_invariant {α : Type} (cap : Nat) (ops : List (TSOp α)) :
    (FIFOBuff_TS.construct α cap).add_sem = cap ∧
    (FIFOBuff_TS.construct α cap).rem_sem = 0 ∧
    (FIFOBuff_TS.runTS (FIFOBuff_TS.construct α cap) ops).add_sem +
      (FIFOBuff_TS.runTS (FIFOBuff_TS.construct α cap) ops).rem_sem = cap ∧
    (∀ (s : FIFOBuff_TS α) (x : α), (s.add x).1 = true →
      (s.add x).2.add_sem + 1 = s.add_sem ∧ (s.add x).2.rem_sem = s.rem_sem + 1) ∧
    (∀ (s : FIFOBuff_TS α) (c : Bool), (s.remove c).1 = true →
      (s.remove c).2.2.rem_sem + 1 = s.rem_sem ∧ (s.remove c).2.2.add_sem = s.add_sem + 1) := by
  refine ⟨rfl, rfl, ?_, ?_, ?_⟩
  · rw [FIFOBuff_TS.runTS_sem]
    rfl
  · intro s x hs
    by_cases h : 0 < s.add_sem
    · have hstep : s.add x =
          (true, ⟨(s.fifo.add x).2, s.add_sem - 1, s.rem_sem + 1⟩) := by
        simp [FIFOBuff_TS.add, h]
      rw [hstep]
      refine ⟨?_, rfl⟩
      show s.add_sem - 1 + 1 = s.add_sem
      omega
    · have hf : (s.add x).1 = false := by simp [FIFOBuff_TS.add, h]
      rw [hs] at hf
      exact Bool.noConfusion hf
  · intro s c hs
    by_cases h : 0 < s.rem_sem
    · have hstep : s.remove c =
          (true, (s.fifo.remove c).2.1,
            ⟨(s.fifo.remove c).2.2, s.add_sem + 1, s.rem_sem - 1⟩) := by
        simp [FIFOBuff_TS.remove, h]
      rw [hstep]
      refine ⟨?_, rfl⟩
      show s.rem_sem - 1 + 1 = s.rem_sem
      omega
    · have hf : (s.remove c).1 = false := by simp [FIFOBuff_TS.remove, h]
      rw [hs] at hf
      exact Bool.noConfusion hf

/-- Witness for C7: counters after a concrete trace on capacity 2, plus
the unit transfer at a concrete successful add and remove. -/
theorem ts_sem_counters_invariant_witness :
    ((FIFOBuff_TS.runTS (FIFOBuff_TS.construct Nat 2)
        [TSOp.add 4, TSOp.add 5, TSOp.remove true]).add_sem +
      (FIFOBuff_TS.runTS (FIFOBuff_TS.construct Nat 2)
        [TSOp.add 4, TSOp.add 5, TSOp.remove true]).rem_sem = 2) ∧
    (((FIFOBuff_TS.construct Nat 2).add 7).2.add_sem + 1 = (FIFOBuff_TS.construct Nat 2).add_sem ∧
      ((FIFOBuff_TS.construct Nat 2).add 7).2.rem_sem = (FIFOBuff_TS.construct Nat 2).rem_sem + 1) ∧
    ((((FIFOBuff_TS.construct Nat 2).add 7).2.remove true).2.2.rem_sem + 1 =
        ((FIFOBuff_TS.construct Nat 2).add 7).2.rem_sem ∧
      (((FIFOBuff_TS.construct Nat 2).add 7).2.remove true).2.2.add_sem =
        ((FIFOBuff_TS.construct Nat 2).add 7).2.add_sem + 1) :=
  ⟨(ts_sem_counters_invariant 2 [TSOp.add 4, TSOp.add 5, TSOp.remove true]).2.2.1,
   (ts_sem_counters_invariant 2 ([] : List (TSOp Nat))).2.2.2.1
     (FIFOBuff_TS.construct Nat 2) 7 (by decide),
   (ts_sem_counters_invariant 2 ([] : List (TSOp Nat))).2.2.2.2
     ((FIFOBuff_TS.construct Nat 2).add 7).2 true (by decide)⟩

/-- C8: confirmed.  The non-blocking `add` of the synchronized queue:
when no free unit is available (`add_sem = 0`) it returns `false` and
leaves the whole state — in particular the wrapped ring buffer —
unmodified; when a free unit is claimed it performs the ring buffer's
`add`, releases one filled unit (`rem_sem` grows by one), and returns
`true`. -/
theorem ts_add_nonblocking {α : Type} (s : FIFOBuff_TS α) (x : α) :
    (s.add_sem = 0 → s.add x = (false, s)) ∧
    (0 < s.add_sem →
      (s.add x).1 = true ∧
      (s.add x).2.fifo = (s.fifo.add x).2 ∧
      (s.add x).2.add_sem + 1 = s.add_sem ∧
      (s.add x).2.rem_sem = s.rem_sem + 1) := by
  constructor
  · intro h
    simp [FIFOBuff_TS.add, h]
  · intro h
    have hstep : s.add x =
        (true, ⟨(s.fifo.add x).2, s.add_sem - 1, s.rem_sem + 1⟩) := by
      simp [FIFOBuff_TS.add, h]
    rw [hstep]
    refine ⟨rfl, rfl, ?_, rfl⟩
    show s.add_sem - 1 + 1 = s.add_sem
    omega

/-- Witness for C8: failure branch at a queue with no free units
(capacity 0) and success branch at a fresh capacity-2 queue. -/
theorem ts_add_nonblocking_witness :
    ((FIFOBuff_TS.construct Nat 0).add 3 = (false, FIFOBuff_TS.construct Nat 0)) ∧
    (((FIFOBuff_TS.construct Nat 2).add 3).1 = true ∧
      ((FIFOBuff_TS.construct Nat 2).add 3).2.fifo = ((FIFOBuff_TS.construct Nat 2).fifo.add 3).2 ∧
      ((FIFOBuff_TS.construct Nat 2).add 3).2.add_sem + 1 = (FIFOBuff_TS.construct Nat 2).add_sem ∧
      ((FIFOBuff_TS.construct Nat 2).add 3).2.rem_sem = (FIFOBuff_TS.construct Nat 2).rem_sem + 1) :=
  ⟨(ts_add_nonblocking (FIFOBuff_TS.construct Nat 0) 3).1 (by decide),
   (ts_add_nonblocking (FIFOBuff_TS.construct Nat 2) 3).2 (by decide)⟩

/-- C10: confirmed.  On any empty buffer (satisfying the structural
invariant, so in particular `capacity > 0`), `add x` succeeds, the
immediately following `remove` with a non-null output pointer succeeds and
delivers exactly `x`, and the buffer is empty again. -/
theorem add_then_remove_roundtrip {α : Type} (s : FIFOBuff α) (x : α)
    (hinv : FIFOBuff.Inv s) (hempty : s.fifo_size = 0) :
    (s.add x).1 = true ∧ ((s.add x).2.remove true).1 = true ∧
    ((s.add x).2.remove true).2.1 = some x ∧
    ((s.add x).2.remove true).2.2.fifo_size = 0 := by
  have habs : FIFOBuff.Abs s [] := ⟨hinv, by simp [FIFOBuff.toList, hempty]⟩
  have hlt : s.fifo_size < s.fifo_cap := by
    rw [hempty]
    exact hinv.2.2.2.2
  have hadd := FIFOBuff.add_spec x habs hlt
  have habs1 : FIFOBuff.Abs (s.add x).2 [x] := by simpa using hadd.2
  have hrem := FIFOBuff.remove_spec (x := x) (q := []) habs1
  refine ⟨hadd.1, hrem.1, hrem.2.1, ?_⟩
  rw [FIFOBuff.abs_size hrem.2.2]
  rfl

/-- Witness for C10 at a concrete empty buffer of capacity 2. -/
theorem add_then_remove_roundtrip_witness :
    ((FIFOBuff.construct Nat 2).add 42).1 = true ∧
    (((FIFOBuff.construct Nat 2).add 42).2.remove true).1 = true ∧
    (((FIFOBuff.construct Nat 2).add 42).2.remove true).2.1 = some 42 ∧
    (((FIFOBuff.construct Nat 2).add 42).2.remove true).2.2.fifo_size = 0 :=
  add_then_remove_roundtrip (FIFOBuff.construct Nat 2) 42
    ⟨by decide, by decide, by decide, by decide, by decide⟩ (by decide)
